import Mathlib

/-!
Verification of the Orzatty Protocol frame codec and framer.

Shallow embedding of `src/orzatty-core/src/frame.rs`, `src/orzatty-core/src/framer.rs`
and the writer actor of `src/orzatty-client/src/easy.rs`.

Bytes are modelled as natural numbers below 256; buffers as `List Nat`.
Machine-integer casts from the source (`as u16`, `as u32`, `as u64`, `as u8`)
are modelled as `% 2^w`; bit shifts on bytes as division/multiplication by
powers of two; fallible functions return `Except`.
-/

namespace Orzatty

/-- Error enum from `src/orzatty-core/src/error.rs`. -/
inductive Error where
  | BufferTooSmall (needed available : Nat)
  | IncompleteInput (needed_min available : Nat)
  | InvalidFrameType (t : Nat)
  | InvalidVarInt
  deriving DecidableEq

/-- `FrameType` enum from `frame.rs` (`RawBinary = 0x00`, `RkyvAligned = 0x01`,
`Utf8Text = 0x02`, `Unknown = 0xFF`). -/
inductive FrameType where
  | RawBinary
  | RkyvAligned
  | Utf8Text
  | Unknown
  deriving DecidableEq

/-- The numeric tag of a frame type (`self.frame_type as u8`). -/
def FrameType.toU8 : FrameType → Nat
  | .RawBinary => 0
  | .RkyvAligned => 1
  | .Utf8Text => 2
  | .Unknown => 255

/-- `impl From<u8> for FrameType` from `frame.rs`: `0x00`, `0x01`, `0x02` map to
their variants, everything else to `Unknown`. -/
def FrameType.ofU8 : Nat → FrameType
  | 0 => .RawBinary
  | 1 => .RkyvAligned
  | 2 => .Utf8Text
  | _ => .Unknown

/-- `FrameFlags` bitflags from `frame.rs`: `CONTROL = 0b1000_0000` (bit 7) and
`PRIORITY = 0b0100_0000` (bit 6); modelled by the two declared bits. -/
structure FrameFlags where
  control : Bool
  priority : Bool
  deriving DecidableEq

/-- `FrameFlags::empty()`. -/
def FrameFlags.empty : FrameFlags := ⟨false, false⟩

/-- `FrameHeader` struct from `frame.rs`. `channel_id` is a `u32`,
`stream_id` and `length` are `u64`; the theorems carry the corresponding
range hypotheses. -/
structure FrameHeader where
  flags : FrameFlags
  frame_type : FrameType
  channel_id : Nat
  stream_id : Nat
  length : Nat
  deriving DecidableEq

/-- `encode_varint` from `frame.rs` (QUIC-style: 2 prefix bits select a width of
1, 2, 4 or 8 bytes).  The result is the list of bytes written; the source's
mutable output slice of length `bufLen` only contributes its length check.
`(v as u16) | 0x4000` is modelled as `(v % 65536) ||| 16384`, and each byte of
`to_be_bytes` as `x / 2^(8k) % 256`. -/
def encode_varint (v bufLen : Nat) : Except Error (List Nat) :=
  if v ≤ 63 then
    if bufLen < 1 then .error (.BufferTooSmall 1 0)
    else .ok [v % 256]
  else if v ≤ 16383 then
    if bufLen < 2 then .error (.BufferTooSmall 2 bufLen)
    else
      .ok [((v % 65536) ||| 16384) / 256 % 256, ((v % 65536) ||| 16384) % 256]
  else if v ≤ 1073741823 then
    if bufLen < 4 then .error (.BufferTooSmall 4 bufLen)
    else
      .ok [((v % 4294967296) ||| 2147483648) / 16777216 % 256,
           ((v % 4294967296) ||| 2147483648) / 65536 % 256,
           ((v % 4294967296) ||| 2147483648) / 256 % 256,
           ((v % 4294967296) ||| 2147483648) % 256]
  else
    if bufLen < 8 then .error (.BufferTooSmall 8 bufLen)
    else
      .ok [(v ||| 13835058055282163712) / 72057594037927936 % 256,
           (v ||| 13835058055282163712) / 281474976710656 % 256,
           (v ||| 13835058055282163712) / 1099511627776 % 256,
           (v ||| 13835058055282163712) / 4294967296 % 256,
           (v ||| 13835058055282163712) / 16777216 % 256,
           (v ||| 13835058055282163712) / 65536 % 256,
           (v ||| 13835058055282163712) / 256 % 256,
           (v ||| 13835058055282163712) % 256]

/-- `decode_varint` from `frame.rs`.  `first >> 6` is `first / 64`, the width is
`1 << prefix = 2 ^ prefix`, `first & 0x3F` is `first % 64`, and
`uN::from_be_bytes` is the base-256 reconstruction.  Returns the decoded value
together with the number of bytes consumed. -/
def decode_varint : List Nat → Except Error (Nat × Nat)
  | [] => .error (.IncompleteInput 1 0)
  | first :: rest =>
    let length := 2 ^ (first / 64)
    if rest.length + 1 < length then .error (.IncompleteInput length (rest.length + 1))
    else if length = 1 then .ok (first % 64, 1)
    else if length = 2 then .ok ((first % 64) * 256 + rest.getD 0 0, 2)
    else if length = 4 then
      .ok ((first % 64) * 16777216 + rest.getD 0 0 * 65536 + rest.getD 1 0 * 256 +
           rest.getD 2 0, 4)
    else if length = 8 then
      .ok ((first % 64) * 72057594037927936 + rest.getD 0 0 * 281474976710656 +
           rest.getD 1 0 * 1099511627776 + rest.getD 2 0 * 4294967296 +
           rest.getD 3 0 * 16777216 + rest.getD 4 0 * 65536 + rest.getD 5 0 * 256 +
           rest.getD 6 0, 8)
    else .error .InvalidVarInt

/-- `FrameHeader::encode` from `frame.rs`: one tag byte
(`flags` bits 7/6 OR-ed onto the 5-bit type tag) followed by the three varints
`channel_id`, `stream_id`, `length`.  The remaining buffer space passed to each
varint call is `bufLen` minus the bytes already written. -/
def FrameHeader.encode (h : FrameHeader) (bufLen : Nat) : Except Error (List Nat) :=
  if bufLen < 1 then .error (.BufferTooSmall 1 bufLen)
  else
    let first_byte := (h.frame_type.toU8 &&& 31) |||
      ((if h.flags.control then 128 else 0) ||| (if h.flags.priority then 64 else 0))
    match encode_varint h.channel_id (bufLen - 1) with
    | .error e => .error e
    | .ok cb =>
      match encode_varint h.stream_id (bufLen - 1 - cb.length) with
      | .error e => .error e
      | .ok sb =>
        match encode_varint h.length (bufLen - 1 - cb.length - sb.length) with
        | .error e => .error e
        | .ok lb => .ok (first_byte :: (cb ++ sb ++ lb))

/-- `FrameHeader::decode` from `frame.rs`: reads the tag byte (flags from bits
7/6, frame type from the low 5 bits), then the three varints; the decoded
channel id is truncated to `u32` (`channel_id_raw as u32`).  Returns the header
and the number of bytes consumed. -/
def FrameHeader.decode : List Nat → Except Error (FrameHeader × Nat)
  | [] => .error (.IncompleteInput 1 0)
  | first :: rest =>
    match decode_varint rest with
    | .error e => .error e
    | .ok (channel_id_raw, len_c) =>
      match decode_varint ((first :: rest).drop (1 + len_c)) with
      | .error e => .error e
      | .ok (stream_id, len_s) =>
        match decode_varint ((first :: rest).drop (1 + len_c + len_s)) with
        | .error e => .error e
        | .ok (length, len_l) =>
          .ok ({ flags := ⟨first &&& 128 != 0, first &&& 64 != 0⟩,
                 frame_type := FrameType.ofU8 (first &&& 31),
                 channel_id := channel_id_raw % 4294967296,
                 stream_id := stream_id,
                 length := length },
               1 + len_c + len_s + len_l)

/-- The smallest of the four varint widths whose payload bits (6/14/30/62) can
represent `v` — stated from the spec, to compare with `encode_varint`. -/
def minimalWidth (v : Nat) : Nat :=
  if v < 64 then 1 else if v < 16384 then 2 else if v < 1073741824 then 4 else 8

/-! Bitwise toolkit: the encoder sets the two prefix bits with `|||`; these
lemmas turn those disjoint-bit ORs into additions so that `omega` can finish
the arithmetic. -/

/-- Bit `i` of `2 ^ k * m`. -/
theorem testBit_two_pow_mul (k m i : Nat) :
    Nat.testBit (2 ^ k * m) i = (decide (i ≥ k) && Nat.testBit m (i - k)) := by
  rw [Nat.mul_comm, ← Nat.shiftLeft_eq]
  exact Nat.testBit_shiftLeft m

/-- Adding `v < 2 ^ k` to a multiple of `2 ^ k` sets bits independently. -/
theorem testBit_two_pow_mul_add {v : Nat} (k m i : Nat) (hv : v < 2 ^ k) :
    Nat.testBit (2 ^ k * m + v) i = (Nat.testBit (2 ^ k * m) i || Nat.testBit v i) := by
  rcases Nat.lt_or_ge i k with hik | hik
  · have h1 : Nat.testBit (2 ^ k * m) i = false := by
      rw [testBit_two_pow_mul]
      simp [Nat.not_le.mpr hik]
    rw [h1, Bool.false_or]
    have hpow : 2 ^ k = 2 ^ i * (2 * 2 ^ (k - i - 1)) := by
      conv_lhs => rw [show k = i + 1 + (k - i - 1) from by omega]
      ring
    have hk : 2 ^ k * m + v = 2 ^ i * (2 * (2 ^ (k - i - 1) * m)) + v := by
      rw [hpow]
      ring
    rw [Nat.testBit_to_div_mod, Nat.testBit_to_div_mod, hk,
        Nat.mul_add_div (Nat.two_pow_pos i), Nat.mul_add_mod]
  · have h2 : Nat.testBit v i = false :=
      Nat.testBit_lt_two_pow (Nat.lt_of_lt_of_le hv (Nat.pow_le_pow_right (by omega) hik))
    rw [h2, Bool.or_false]
    obtain ⟨c, hc⟩ : 2 ^ k ∣ 2 ^ k * m % 2 ^ i :=
      (Nat.dvd_mod_iff (Nat.pow_dvd_pow 2 hik)).mpr (Dvd.intro m rfl)
    have hr : 2 ^ k * m % 2 ^ i < 2 ^ i := Nat.mod_lt _ (Nat.two_pow_pos i)
    have hcc : c < 2 ^ (i - k) := by
      by_contra hcc
      have hik2 : 2 ^ k * 2 ^ (i - k) = 2 ^ i := by
        rw [← Nat.pow_add]
        congr 1
        omega
      have h5 : 2 ^ i ≤ 2 ^ k * c := by
        rw [← hik2]
        exact Nat.mul_le_mul_left _ (Nat.le_of_not_lt hcc)
      omega
    have hstep : 2 ^ k * c + 2 ^ k ≤ 2 ^ i := by
      have h1 : 2 ^ k * (c + 1) ≤ 2 ^ k * 2 ^ (i - k) :=
        Nat.mul_le_mul_left _ hcc
      rw [Nat.mul_add, Nat.mul_one, ← Nat.pow_add,
          show k + (i - k) = i from by omega] at h1
      exact h1
    rw [Nat.testBit_to_div_mod, Nat.testBit_to_div_mod]
    have hdiv1 : (2 ^ k * m + v) / 2 ^ i = 2 ^ k * m / 2 ^ i := by
      conv_lhs => rw [(Nat.div_add_mod (2 ^ k * m) (2 ^ i)).symm]
      rw [Nat.add_assoc, Nat.mul_add_div (Nat.two_pow_pos i),
          Nat.div_eq_of_lt (show 2 ^ k * m % 2 ^ i + v < 2 ^ i by omega), Nat.add_zero]
    rw [hdiv1]

/-- `lor` splits across the boundary at bit `k`. -/
theorem lor_split (k a b c d : Nat) (hb : b < 2 ^ k) (hd : d < 2 ^ k) :
    (2 ^ k * a + b) ||| (2 ^ k * c + d) = 2 ^ k * (a ||| c) + (b ||| d) := by
  have hbd : b ||| d < 2 ^ k := Nat.or_lt_two_pow hb hd
  apply Nat.eq_of_testBit_eq
  intro i
  rw [Nat.testBit_or, testBit_two_pow_mul_add k a i hb, testBit_two_pow_mul_add k c i hd,
      testBit_two_pow_mul_add k (a ||| c) i hbd]
  simp only [Nat.testBit_or, testBit_two_pow_mul]
  cases decide (i ≥ k) <;> cases Nat.testBit a (i - k) <;> cases Nat.testBit c (i - k) <;>
    cases Nat.testBit b i <;> cases Nat.testBit d i <;> rfl

/-- OR-ing high bits onto `v < 2 ^ k` is addition. -/
theorem lor_two_pow_mul (k m v : Nat) (hv : v < 2 ^ k) : v ||| 2 ^ k * m = v + 2 ^ k * m := by
  have h := lor_split k 0 v m 0 hv (Nat.two_pow_pos k)
  have h2 : v ||| 2 ^ k * m = 2 ^ k * m + v := by simpa using h
  omega

/-- Width-2 prefix: `v | 0x4000` for `v < 2 ^ 14`. -/
theorem lor_16384 (v : Nat) (hv : v < 16384) : v ||| 16384 = v + 16384 := by
  have h := lor_two_pow_mul 14 1 v (by omega)
  norm_num at h
  exact h

/-- Width-4 prefix: `v | 0x8000_0000` for `v < 2 ^ 31`. -/
theorem lor_2147483648 (v : Nat) (hv : v < 2147483648) :
    v ||| 2147483648 = v + 2147483648 := by
  have h := lor_two_pow_mul 31 1 v (by omega)
  norm_num at h
  exact h

/-- Width-8 prefix: `v | 0xC000_0000_0000_0000` keeps the low 62 bits of `v`
and sets bits 62 and 63. -/
theorem lor_top (v : Nat) (hv : v < 18446744073709551616) :
    v ||| 13835058055282163712 = v % 4611686018427387904 + 13835058055282163712 := by
  have e62 : (4611686018427387904 : Nat) = 2 ^ 62 := by norm_num
  have e3 : (13835058055282163712 : Nat) = 2 ^ 62 * 3 + 0 := by norm_num
  have ev : v = 2 ^ 62 * (v / 2 ^ 62) + v % 2 ^ 62 := (Nat.div_add_mod v (2 ^ 62)).symm
  have hq : v / 2 ^ 62 ||| 3 = 3 := by
    have h4 : v / 2 ^ 62 = 0 ∨ v / 2 ^ 62 = 1 ∨ v / 2 ^ 62 = 2 ∨ v / 2 ^ 62 = 3 := by
      omega
    rcases h4 with h | h | h | h <;> rw [h] <;> decide
  rw [e62, e3]
  conv_lhs => rw [ev]
  rw [lor_split 62 (v / 2 ^ 62) (v % 2 ^ 62) 3 0 (Nat.mod_lt _ (Nat.two_pow_pos 62))
      (Nat.two_pow_pos 62), hq, Nat.or_zero]
  omega

/-! Evaluation lemmas for `decode_varint`, one per width, keyed on the range of
the first byte (which fixes the 2-bit prefix). -/

/-- A first byte below `0x40` decodes as a 1-byte varint. -/
theorem decode_varint_one (f : Nat) (r : List Nat) (h2 : f < 64) :
    decode_varint (f :: r) = .ok (f % 64, 1) := by
  simp only [decode_varint]
  rw [show f / 64 = 0 from by omega]
  norm_num

/-- A first byte in `[0x40, 0x80)` decodes as a 2-byte varint. -/
theorem decode_varint_two (f b1 : Nat) (r : List Nat) (h1 : 64 ≤ f) (h2 : f < 128) :
    decode_varint (f :: b1 :: r) = .ok ((f % 64) * 256 + b1, 2) := by
  simp only [decode_varint]
  rw [show f / 64 = 1 from by omega]
  norm_num

/-- A first byte in `[0x80, 0xC0)` decodes as a 4-byte varint. -/
theorem decode_varint_four (f b1 b2 b3 : Nat) (r : List Nat) (h1 : 128 ≤ f)
    (h2 : f < 192) :
    decode_varint (f :: b1 :: b2 :: b3 :: r) =
      .ok ((f % 64) * 16777216 + b1 * 65536 + b2 * 256 + b3, 4) := by
  simp only [decode_varint]
  rw [show f / 64 = 2 from by omega]
  norm_num

/-- A first byte of `0xC0` or above decodes as an 8-byte varint. -/
theorem decode_varint_eight (f b1 b2 b3 b4 b5 b6 b7 : Nat) (r : List Nat)
    (h1 : 192 ≤ f) (h2 : f < 256) :
    decode_varint (f :: b1 :: b2 :: b3 :: b4 :: b5 :: b6 :: b7 :: r) =
      .ok ((f % 64) * 72057594037927936 + b1 * 281474976710656 + b2 * 1099511627776 +
           b3 * 4294967296 + b4 * 16777216 + b5 * 65536 + b6 * 256 + b7, 8) := by
  simp only [decode_varint]
  rw [show f / 64 = 3 from by omega]
  norm_num

/-- `encode_varint` on an in-range value and a large enough buffer: it writes
exactly `minimalWidth v` bytes, and decoding them back (with any trailing
bytes) returns `v` and that width. -/
theorem encode_varint_spec (v bufLen : Nat) (hv : v < 4611686018427387904)
    (hb : minimalWidth v ≤ bufLen) :
    ∃ bs, encode_varint v bufLen = .ok bs ∧ bs.length = minimalWidth v ∧
      ∀ tail, decode_varint (bs ++ tail) = .ok (v, minimalWidth v) := by
  by_cases c1 : v ≤ 63
  · have hmw : minimalWidth v = 1 := by
      unfold minimalWidth
      rw [if_pos (by omega)]
    rw [hmw] at hb ⊢
    have he : encode_varint v bufLen = .ok [v % 256] := by
      unfold encode_varint
      rw [if_pos c1, if_neg (by omega)]
    refine ⟨_, he, by simp, ?_⟩
    intro tail
    rw [List.singleton_append, decode_varint_one _ _ (by omega)]
    rw [show v % 256 % 64 = v from by omega]
  · by_cases c2 : v ≤ 16383
    · have hmw : minimalWidth v = 2 := by
        unfold minimalWidth
        rw [if_neg (by omega), if_pos (by omega)]
      rw [hmw] at hb ⊢
      have hx : (v % 65536) ||| 16384 = v + 16384 := by
        rw [Nat.mod_eq_of_lt (by omega)]
        exact lor_16384 v (by omega)
      have he : encode_varint v bufLen =
          .ok [(v + 16384) / 256 % 256, (v + 16384) % 256] := by
        unfold encode_varint
        rw [if_neg c1, if_pos c2, if_neg (by omega), hx]
      refine ⟨_, he, by simp, ?_⟩
      intro tail
      simp only [List.cons_append, List.nil_append]
      rw [decode_varint_two _ _ _ (by omega) (by omega)]
      rw [show (v + 16384) / 256 % 256 % 64 * 256 + (v + 16384) % 256 = v from by omega]
    · by_cases c3 : v ≤ 1073741823
      · have hmw : minimalWidth v = 4 := by
          unfold minimalWidth
          rw [if_neg (by omega), if_neg (by omega), if_pos (by omega)]
        rw [hmw] at hb ⊢
        have hx : (v % 4294967296) ||| 2147483648 = v + 2147483648 := by
          rw [Nat.mod_eq_of_lt (by omega)]
          exact lor_2147483648 v (by omega)
        have he : encode_varint v bufLen =
            .ok [(v + 2147483648) / 16777216 % 256, (v + 2147483648) / 65536 % 256,
                 (v + 2147483648) / 256 % 256, (v + 2147483648) % 256] := by
          unfold encode_varint
          rw [if_neg c1, if_neg c2, if_pos c3, if_neg (by omega), hx]
        refine ⟨_, he, by simp, ?_⟩
        intro tail
        simp only [List.cons_append, List.nil_append]
        rw [decode_varint_four _ _ _ _ _ (by omega) (by omega)]
        rw [show (v + 2147483648) / 16777216 % 256 % 64 * 16777216 +
            (v + 2147483648) / 65536 % 256 * 65536 +
            (v + 2147483648) / 256 % 256 * 256 + (v + 2147483648) % 256 = v from by omega]
      · have hmw : minimalWidth v = 8 := by
          unfold minimalWidth
          rw [if_neg (by omega), if_neg (by omega), if_neg (by omega)]
        rw [hmw] at hb ⊢
        have hx : v ||| 13835058055282163712 = v + 13835058055282163712 := by
          rw [lor_top v (by omega), Nat.mod_eq_of_lt (by omega)]
        have he : encode_varint v bufLen =
            .ok [(v + 13835058055282163712) / 72057594037927936 % 256,
                 (v + 13835058055282163712) / 281474976710656 % 256,
                 (v + 13835058055282163712) / 1099511627776 % 256,
                 (v + 13835058055282163712) / 4294967296 % 256,
                 (v + 13835058055282163712) / 16777216 % 256,
                 (v + 13835058055282163712) / 65536 % 256,
                 (v + 13835058055282163712) / 256 % 256,
                 (v + 13835058055282163712) % 256] := by
          unfold encode_varint
          rw [if_neg c1, if_neg c2, if_neg c3, if_neg (by omega), hx]
        refine ⟨_, he, by simp, ?_⟩
        intro tail
        simp only [List.cons_append, List.nil_append]
        rw [decode_varint_eight _ _ _ _ _ _ _ _ _ (by omega) (by omega)]
        rw [show (v + 13835058055282163712) / 72057594037927936 % 256 % 64 *
              72057594037927936 +
            (v + 13835058055282163712) / 281474976710656 % 256 * 281474976710656 +
            (v + 13835058055282163712) / 1099511627776 % 256 * 1099511627776 +
            (v + 13835058055282163712) / 4294967296 % 256 * 4294967296 +
            (v + 13835058055282163712) / 16777216 % 256 * 16777216 +
            (v + 13835058055282163712) / 65536 % 256 * 65536 +
            (v + 13835058055282163712) / 256 % 256 * 256 +
            (v + 13835058055282163712) % 256 = v from by omega]

/-! Inversion and unfolding lemmas for the decoders. -/

/-- A successful varint decode consumes between 1 byte and the whole buffer. -/
theorem decode_varint_ok_bounds (b : List Nat) (v l : Nat)
    (h : decode_varint b = .ok (v, l)) : 1 ≤ l ∧ l ≤ b.length := by
  cases b with
  | nil => simp [decode_varint] at h
  | cons f r =>
    simp only [decode_varint] at h
    split_ifs at h <;> simp at h <;> simp [List.length_cons] <;> omega

/-- A successful varint decode takes its length from the first byte's prefix. -/
theorem decode_varint_ok_len (f : Nat) (r : List Nat) (v l : Nat)
    (h : decode_varint (f :: r) = .ok (v, l)) : l = 2 ^ (f / 64) := by
  simp only [decode_varint] at h
  split_ifs at h <;> simp at h <;> omega

/-- On byte input, `decode_varint` only ever fails with `IncompleteInput`. -/
theorem decode_varint_error_incomplete (b : List Nat) (hb : ∀ x ∈ b, x < 256)
    (e : Error) (h : decode_varint b = .error e) :
    ∃ nm av, e = .IncompleteInput nm av := by
  cases b with
  | nil =>
    simp only [decode_varint] at h
    injection h with h
    exact ⟨1, 0, h.symm⟩
  | cons f r =>
    have hf : f < 256 := hb f (by simp)
    have h4 : f / 64 = 0 ∨ f / 64 = 1 ∨ f / 64 = 2 ∨ f / 64 = 3 := by omega
    simp only [decode_varint] at h
    by_cases hlen : r.length + 1 < 2 ^ (f / 64)
    · rw [if_pos hlen] at h
      injection h with h
      exact ⟨_, _, h.symm⟩
    · rw [if_neg hlen] at h
      rcases h4 with h4 | h4 | h4 | h4 <;> rw [h4] at h <;> norm_num at h <;>
        exact Except.noConfusion h

/-- Unfolding `FrameHeader::decode` when the channel varint fails. -/
theorem decode_error_channel (f : Nat) (r : List Nat) (e : Error)
    (hc : decode_varint r = .error e) :
    FrameHeader.decode (f :: r) = .error e := by
  simp only [FrameHeader.decode, hc]

/-- Unfolding `FrameHeader::decode` when the stream varint fails. -/
theorem decode_error_stream (f : Nat) (r : List Nat) (c lc : Nat) (e : Error)
    (hc : decode_varint r = .ok (c, lc))
    (hs : decode_varint ((f :: r).drop (1 + lc)) = .error e) :
    FrameHeader.decode (f :: r) = .error e := by
  simp only [FrameHeader.decode, hc, hs]

/-- Unfolding `FrameHeader::decode` when the length varint fails. -/
theorem decode_error_length (f : Nat) (r : List Nat) (c lc s ls : Nat) (e : Error)
    (hc : decode_varint r = .ok (c, lc))
    (hs : decode_varint ((f :: r).drop (1 + lc)) = .ok (s, ls))
    (hl : decode_varint ((f :: r).drop (1 + lc + ls)) = .error e) :
    FrameHeader.decode (f :: r) = .error e := by
  simp only [FrameHeader.decode, hc, hs, hl]

/-- Unfolding `FrameHeader::decode` when all three varints succeed. -/
theorem decode_cons_eq (f : Nat) (r : List Nat) (c lc s ls L ll : Nat)
    (hc : decode_varint r = .ok (c, lc))
    (hs : decode_varint ((f :: r).drop (1 + lc)) = .ok (s, ls))
    (hl : decode_varint ((f :: r).drop (1 + lc + ls)) = .ok (L, ll)) :
    FrameHeader.decode (f :: r) =
      .ok ({ flags := ⟨f &&& 128 != 0, f &&& 64 != 0⟩,
             frame_type := FrameType.ofU8 (f &&& 31),
             channel_id := c % 4294967296,
             stream_id := s,
             length := L }, 1 + lc + ls + ll) := by
  simp only [FrameHeader.decode, hc, hs, hl]

/-- A successful header decode consumes between 1 byte and the whole buffer. -/
theorem decode_ok_bounds (buf : List Nat) (h : FrameHeader) (n : Nat)
    (hd : FrameHeader.decode buf = .ok (h, n)) : 1 ≤ n ∧ n ≤ buf.length := by
  cases buf with
  | nil => simp [FrameHeader.decode] at hd
  | cons f r =>
    rcases hc : decode_varint r with e | ⟨c, lc⟩
    · rw [decode_error_channel f r e hc] at hd
      exact absurd hd (by simp)
    rcases hs : decode_varint ((f :: r).drop (1 + lc)) with e | ⟨s, ls⟩
    · rw [decode_error_stream f r c lc e hc hs] at hd
      exact absurd hd (by simp)
    rcases hl : decode_varint ((f :: r).drop (1 + lc + ls)) with e | ⟨L, ll⟩
    · rw [decode_error_length f r c lc s ls e hc hs hl] at hd
      exact absurd hd (by simp)
    rw [decode_cons_eq f r c lc s ls L ll hc hs hl] at hd
    simp only [Except.ok.injEq, Prod.mk.injEq] at hd
    obtain ⟨-, hn⟩ := hd
    have b1 := (decode_varint_ok_bounds r c lc hc).2
    have b2 := (decode_varint_ok_bounds _ s ls hs).2
    have b3 := (decode_varint_ok_bounds _ L ll hl).2
    simp only [List.length_drop, List.length_cons] at b2 b3
    simp only [List.length_cons]
    omega

/-- `minimalWidth` is between 1 and 8. -/
theorem minimalWidth_pos (v : Nat) : 1 ≤ minimalWidth v ∧ minimalWidth v ≤ 8 := by
  unfold minimalWidth
  split_ifs <;> omega

/-- The tag byte built by `FrameHeader::encode` recovers its three components
under the bit tests performed by `FrameHeader::decode`. -/
theorem first_byte_spec (ft : FrameType) (c p : Bool) :
    (((ft.toU8 &&& 31) ||| ((if c then 128 else 0) ||| (if p then 64 else 0))) &&& 128
      != 0) = c ∧
    (((ft.toU8 &&& 31) ||| ((if c then 128 else 0) ||| (if p then 64 else 0))) &&& 64
      != 0) = p ∧
    FrameType.ofU8
      (((ft.toU8 &&& 31) ||| ((if c then 128 else 0) ||| (if p then 64 else 0))) &&& 31)
      = ft := by
  cases ft <;> cases c <;> cases p <;> decide

/-- Claim C1: for every byte sequence `b`, `FrameHeader::decode b` terminates
(it is a total function) and either returns a header together with a consumed
byte count at most `b.length`, or an explicit `Error` value. -/
theorem decode_total_no_overread (buf : List Nat) (hb : ∀ x ∈ buf, x < 256) :
    (∃ h n, FrameHeader.decode buf = .ok (h, n) ∧ n ≤ buf.length) ∨
    (∃ e, FrameHeader.decode buf = .error e) := by
  rcases hd : FrameHeader.decode buf with e | ⟨h, n⟩
  · exact Or.inr ⟨e, rfl⟩
  · exact Or.inl ⟨h, n, rfl, (decode_ok_bounds buf h n hd).2⟩

/-- Witness for C1 at the concrete input `[0, 0, 0, 0]`. -/
theorem decode_total_no_overread_witness :
    (∃ h n, FrameHeader.decode [0, 0, 0, 0] = .ok (h, n) ∧ n ≤ ([0, 0, 0, 0] : List Nat).length) ∨
    (∃ e, FrameHeader.decode [0, 0, 0, 0] = .error e) :=
  decode_total_no_overread [0, 0, 0, 0] (by decide)

/-- Claim C2: for every `v < 2 ^ 62` and a buffer of at least `minimalWidth v`
bytes, `encode_varint` writes exactly `minimalWidth v` bytes — the smallest of
the four widths that fits `v` — and `decode_varint` on the written bytes
returns exactly `(v, minimalWidth v)`. -/
theorem varint_roundtrip_minimal (v bufLen : Nat) (hv : v < 4611686018427387904)
    (hb : minimalWidth v ≤ bufLen) :
    ∃ bs, encode_varint v bufLen = .ok bs ∧ bs.length = minimalWidth v ∧
      decode_varint bs = .ok (v, minimalWidth v) := by
  obtain ⟨bs, h1, h2, h3⟩ := encode_varint_spec v bufLen hv hb
  exact ⟨bs, h1, h2, by simpa using h3 []⟩

/-- Witness for C2 at `v = 300`, which needs the 2-byte width. -/
theorem varint_roundtrip_minimal_witness :
    ∃ bs, encode_varint 300 8 = .ok bs ∧ bs.length = minimalWidth 300 ∧
      decode_varint bs = .ok (300, minimalWidth 300) :=
  varint_roundtrip_minimal 300 8 (by norm_num) (by decide)

/-- Claim C9: a value `v ≥ 2 ^ 62` is not rejected by `encode_varint`: with at
least 8 buffer bytes it returns 8 written bytes whose decoding yields
`v % 2 ^ 62`, a value different from `v` — the round-trip silently wraps. -/
theorem encode_varint_overflow_wraps (v bufLen : Nat)
    (h62 : 4611686018427387904 ≤ v) (h64 : v < 18446744073709551616)
    (hb : 8 ≤ bufLen) :
    ∃ bs, encode_varint v bufLen = .ok bs ∧ bs.length = 8 ∧
      decode_varint bs = .ok (v % 4611686018427387904, 8) ∧
      v % 4611686018427387904 ≠ v := by
  have hx : v ||| 13835058055282163712 =
      v % 4611686018427387904 + 13835058055282163712 := lor_top v h64
  have he : encode_varint v bufLen =
      .ok [(v % 4611686018427387904 + 13835058055282163712) / 72057594037927936 % 256,
           (v % 4611686018427387904 + 13835058055282163712) / 281474976710656 % 256,
           (v % 4611686018427387904 + 13835058055282163712) / 1099511627776 % 256,
           (v % 4611686018427387904 + 13835058055282163712) / 4294967296 % 256,
           (v % 4611686018427387904 + 13835058055282163712) / 16777216 % 256,
           (v % 4611686018427387904 + 13835058055282163712) / 65536 % 256,
           (v % 4611686018427387904 + 13835058055282163712) / 256 % 256,
           (v % 4611686018427387904 + 13835058055282163712) % 256] := by
    unfold encode_varint
    rw [if_neg (by omega), if_neg (by omega), if_neg (by omega), if_neg (by omega), hx]
  refine ⟨_, he, by simp, ?_, by omega⟩
  rw [decode_varint_eight _ _ _ _ _ _ _ _ _ (by omega) (by omega)]
  rw [show (v % 4611686018427387904 + 13835058055282163712) / 72057594037927936 % 256 %
        64 * 72057594037927936 +
      (v % 4611686018427387904 + 13835058055282163712) / 281474976710656 % 256 *
        281474976710656 +
      (v % 4611686018427387904 + 13835058055282163712) / 1099511627776 % 256 *
        1099511627776 +
      (v % 4611686018427387904 + 13835058055282163712) / 4294967296 % 256 * 4294967296 +
      (v % 4611686018427387904 + 13835058055282163712) / 16777216 % 256 * 16777216 +
      (v % 4611686018427387904 + 13835058055282163712) / 65536 % 256 * 65536 +
      (v % 4611686018427387904 + 13835058055282163712) / 256 % 256 * 256 +
      (v % 4611686018427387904 + 13835058055282163712) % 256 =
      v % 4611686018427387904 from by omega]

/-- Witness for C9 at `v = 2 ^ 62` exactly. -/
theorem encode_varint_overflow_wraps_witness :
    ∃ bs, encode_varint 4611686018427387904 8 = .ok bs ∧ bs.length = 8 ∧
      decode_varint bs = .ok (4611686018427387904 % 4611686018427387904, 8) ∧
      4611686018427387904 % 4611686018427387904 ≠ 4611686018427387904 :=
  encode_varint_overflow_wraps 4611686018427387904 8 (by norm_num) (by norm_num)
    (by norm_num)

/-- `encode_varint` always succeeds with 1 to 8 written bytes when at least 8
buffer bytes are available. -/
theorem encode_varint_total (v bufLen : Nat) (hb : 8 ≤ bufLen) :
    ∃ bs, encode_varint v bufLen = .ok bs ∧ 1 ≤ bs.length ∧ bs.length ≤ 8 := by
  unfold encode_varint
  split_ifs
  all_goals first
    | (exfalso; omega)
    | (exact ⟨_, rfl, by simp, by simp⟩)

/-- Claim C10: with a buffer of at least 25 bytes, `FrameHeader::encode` always
succeeds and writes at most 25 bytes (1 tag byte plus three varints of at most
8 bytes each); the `BufferTooSmall` branch is unreachable, so fixed 32-byte
header buffers never hit it. -/
theorem encode_bounded_buffer_ok (h : FrameHeader) (bufLen : Nat) (hb : 25 ≤ bufLen) :
    ∃ bs, FrameHeader.encode h bufLen = .ok bs ∧ bs.length ≤ 25 := by
  obtain ⟨cb, hcb, hc1, hc8⟩ := encode_varint_total h.channel_id (bufLen - 1) (by omega)
  obtain ⟨sb, hsb, hs1, hs8⟩ :=
    encode_varint_total h.stream_id (bufLen - 1 - cb.length) (by omega)
  obtain ⟨lb, hlb, hl1, hl8⟩ :=
    encode_varint_total h.length (bufLen - 1 - cb.length - sb.length) (by omega)
  have he : FrameHeader.encode h bufLen =
      .ok (((h.frame_type.toU8 &&& 31) |||
        ((if h.flags.control then 128 else 0) ||| (if h.flags.priority then 64 else 0)))
        :: (cb ++ sb ++ lb)) := by
    unfold FrameHeader.encode
    rw [if_neg (by omega)]
    simp only [hcb, hsb, hlb]
  refine ⟨_, he, ?_⟩
  simp only [List.length_cons, List.length_append]
  omega

/-- Witness for C10 at a default header and the 32-byte buffer the writer
actor uses. -/
theorem encode_bounded_buffer_ok_witness :
    ∃ bs, FrameHeader.encode
      { flags := ⟨false, false⟩, frame_type := .RawBinary, channel_id := 0,
        stream_id := 0, length := 0 } 32 = .ok bs ∧ bs.length ≤ 25 :=
  encode_bounded_buffer_ok _ 32 (by norm_num)

/-- Encode/decode round-trip for a whole header: the shared content behind
claims C3 and C8. -/
theorem header_encode_decode_spec (h : FrameHeader) (bufLen : Nat)
    (hc : h.channel_id < 4294967296) (hs : h.stream_id < 4611686018427387904)
    (hl : h.length < 4611686018427387904)
    (hb : 1 + minimalWidth h.channel_id + minimalWidth h.stream_id +
      minimalWidth h.length ≤ bufLen) :
    ∃ bs, FrameHeader.encode h bufLen = .ok bs ∧
      bs.length = 1 + minimalWidth h.channel_id + minimalWidth h.stream_id +
        minimalWidth h.length ∧
      FrameHeader.decode bs = .ok (h, bs.length) := by
  obtain ⟨⟨fc, fp⟩, ft, ch, sid, len⟩ := h
  simp only at hc hs hl hb ⊢
  have m1 := minimalWidth_pos ch
  have m2 := minimalWidth_pos sid
  have m3 := minimalWidth_pos len
  obtain ⟨cb, hcb, hclen, hcdec⟩ :=
    encode_varint_spec ch (bufLen - 1) (by omega) (by omega)
  obtain ⟨sb, hsb, hslen, hsdec⟩ :=
    encode_varint_spec sid (bufLen - 1 - cb.length) (by omega)
      (by rw [hclen] at *; omega)
  obtain ⟨lb, hlb, hllen, hldec⟩ :=
    encode_varint_spec len (bufLen - 1 - cb.length - sb.length) (by omega)
      (by rw [hclen, hslen] at *; omega)
  obtain ⟨hb128, hb64, hb31⟩ := first_byte_spec ft fc fp
  have he : FrameHeader.encode ⟨⟨fc, fp⟩, ft, ch, sid, len⟩ bufLen =
      .ok (((ft.toU8 &&& 31) |||
        ((if fc then 128 else 0) ||| (if fp then 64 else 0))) :: (cb ++ sb ++ lb)) := by
    unfold FrameHeader.encode
    rw [if_neg (by omega)]
    simp only [hcb, hsb, hlb]
  have d1 : decode_varint (cb ++ sb ++ lb) = .ok (ch, cb.length) := by
    rw [List.append_assoc, hclen]
    exact hcdec (sb ++ lb)
  have d2 : decode_varint
      ((((ft.toU8 &&& 31) ||| ((if fc then 128 else 0) ||| (if fp then 64 else 0))) ::
        (cb ++ sb ++ lb)).drop (1 + cb.length)) = .ok (sid, sb.length) := by
    rw [show 1 + cb.length = cb.length + 1 from by omega, List.drop_succ_cons,
        List.append_assoc, List.drop_left, hslen]
    exact hsdec lb
  have d3 : decode_varint
      ((((ft.toU8 &&& 31) ||| ((if fc then 128 else 0) ||| (if fp then 64 else 0))) ::
        (cb ++ sb ++ lb)).drop (1 + cb.length + sb.length)) = .ok (len, lb.length) := by
    rw [show 1 + cb.length + sb.length = (cb.length + sb.length) + 1 from by omega,
        List.drop_succ_cons,
        show cb.length + sb.length = (cb ++ sb).length from (List.length_append cb sb).symm,
        List.drop_left, hllen]
    simpa using hldec []
  have hd2 := decode_cons_eq _ (cb ++ sb ++ lb) ch cb.length sid sb.length len lb.length
    d1 d2 d3
  rw [hb128, hb64, hb31, Nat.mod_eq_of_lt hc] at hd2
  refine ⟨_, he, ?_, ?_⟩
  · simp only [List.length_cons, List.length_append, hclen, hslen, hllen]
    omega
  · rw [show ((((ft.toU8 &&& 31) |||
        ((if fc then 128 else 0) ||| (if fp then 64 else 0))) ::
        (cb ++ sb ++ lb)).length) = 1 + cb.length + sb.length + lb.length from by
      simp only [List.length_cons, List.length_append]; omega]
    exact hd2

/-- Claim C3: for every header whose `stream_id` and `length` are below
`2 ^ 62` (with `channel_id` a `u32`) and every buffer large enough for its
encoding, decoding the bytes written by `FrameHeader::encode` returns the same
header and consumes exactly the number of bytes reported written — all five
fields round-trip unchanged. -/
theorem header_roundtrip (h : FrameHeader) (bufLen : Nat)
    (hc : h.channel_id < 4294967296) (hs : h.stream_id < 4611686018427387904)
    (hl : h.length < 4611686018427387904)
    (hb : 1 + minimalWidth h.channel_id + minimalWidth h.stream_id +
      minimalWidth h.length ≤ bufLen) :
    ∃ bs, FrameHeader.encode h bufLen = .ok bs ∧
      bs.length = 1 + minimalWidth h.channel_id + minimalWidth h.stream_id +
        minimalWidth h.length ∧
      FrameHeader.decode bs = .ok (h, bs.length) :=
  header_encode_decode_spec h bufLen hc hs hl hb

/-- Witness for C3 at a concrete header exercising flags and three widths. -/
theorem header_roundtrip_witness :
    ∃ bs, FrameHeader.encode
      { flags := ⟨true, false⟩, frame_type := .Utf8Text, channel_id := 42,
        stream_id := 12345, length := 100 } 32 = .ok bs ∧
      bs.length = 1 + minimalWidth 42 + minimalWidth 12345 + minimalWidth 100 ∧
      FrameHeader.decode bs =
        .ok ({ flags := ⟨true, false⟩, frame_type := .Utf8Text, channel_id := 42,
               stream_id := 12345, length := 100 }, bs.length) :=
  header_roundtrip _ 32 (by norm_num) (by norm_num) (by norm_num) (by decide)

/-- `Framer::parse_frame` from `src/orzatty-core/src/framer.rs`.  The Framer's
internal `BytesMut` is the `buffer` argument; on a complete frame the
header-plus-payload bytes are consumed (`advance` + `split_to`), so the result
carries the payload and the remaining buffer.  `anyhow` errors are modelled as
the strings the source builds. -/
def Framer.parse_frame (buffer : List Nat) :
    Except String (Option ((FrameHeader × List Nat) × List Nat)) :=
  if buffer.isEmpty then .ok none
  else
    match FrameHeader.decode buffer with
    | .ok (header, head_len) =>
      if head_len + header.length ≤ buffer.length then
        .ok (some ((header, (buffer.drop head_len).take header.length),
                   buffer.drop (head_len + header.length)))
      else .ok none
    | .error (.IncompleteInput _ _) => .ok none
    | .error (.BufferTooSmall _ _) =>
      .error "Unexpected BufferTooSmall error during frame decode"
    | .error _ => .error "Frame header decode error"

/-- `Framer::read_frame` from `framer.rs`.  The QUIC `RecvStream` is modelled
by the list of chunks its successive `read` calls deliver: a leading empty
chunk models `Ok(Some(0))` and exhausting the list models `Ok(None)`, both of
which the source treats as end of stream.  The loop alternates parsing and
reading; on success it returns the frame, the remaining buffer and the unread
chunks.  (The source's buffer-capacity reservation is a performance policy
with no effect on the values and is not modelled.) -/
def Framer.read_frame : List Nat → List (List Nat) →
    Except String (Option ((FrameHeader × List Nat) × (List Nat × List (List Nat))))
  | buffer, [] =>
    match Framer.parse_frame buffer with
    | .error e => .error e
    | .ok (some (frame, restBuf)) => .ok (some (frame, restBuf, []))
    | .ok none =>
      if buffer.isEmpty then .ok none
      else .error "Stream closed with partial frame data"
  | buffer, c :: rest =>
    match Framer.parse_frame buffer with
    | .error e => .error e
    | .ok (some (frame, restBuf)) => .ok (some (frame, restBuf, c :: rest))
    | .ok none =>
      if c.isEmpty then
        if buffer.isEmpty then .ok none
        else .error "Stream closed with partial frame data"
      else Framer.read_frame (buffer ++ c) rest

/-! Prefix stability of the decoders: decoding only inspects the bytes it
consumes, so a successful decode survives both extending the buffer and
truncating it to at least the consumed length, and truncating below the
consumed length yields `IncompleteInput`. -/

/-- A successful varint decode is preserved when the bytes after the first are
replaced by any list that is long enough and agrees on the consumed bytes. -/
theorem decode_varint_ext (f : Nat) (r₁ r₂ : List Nat) (v l : Nat)
    (h : decode_varint (f :: r₁) = .ok (v, l)) (hlen : l ≤ r₂.length + 1)
    (hag : ∀ i, i + 1 < l → r₁.getD i 0 = r₂.getD i 0) :
    decode_varint (f :: r₂) = .ok (v, l) := by
  have hL := decode_varint_ok_len f r₁ v l h
  simp only [decode_varint] at h ⊢
  rw [← hL] at h ⊢
  have hr1 : ¬(r₁.length + 1 < l) := by
    intro hcon
    rw [if_pos hcon] at h
    exact Except.noConfusion h
  rw [if_neg hr1] at h
  rw [if_neg (show ¬(r₂.length + 1 < l) from by omega)]
  by_cases e1 : l = 1
  · rw [if_pos e1] at h ⊢
    exact h
  rw [if_neg e1] at h ⊢
  by_cases e2 : l = 2
  · rw [if_pos e2] at h ⊢
    rw [← hag 0 (by omega)]
    exact h
  rw [if_neg e2] at h ⊢
  by_cases e4 : l = 4
  · rw [if_pos e4] at h ⊢
    rw [← hag 0 (by omega), ← hag 1 (by omega), ← hag 2 (by omega)]
    exact h
  rw [if_neg e4] at h ⊢
  by_cases e8 : l = 8
  · rw [if_pos e8] at h ⊢
    rw [← hag 0 (by omega), ← hag 1 (by omega), ← hag 2 (by omega), ← hag 3 (by omega),
        ← hag 4 (by omega), ← hag 5 (by omega), ← hag 6 (by omega)]
    exact h
  rw [if_neg e8] at h ⊢
  exact Except.noConfusion h

/-- Truncating below the consumed length of a successful varint decode yields
`IncompleteInput`. -/
theorem decode_varint_short (f : Nat) (r₁ r₂ : List Nat) (v l : Nat)
    (h : decode_varint (f :: r₁) = .ok (v, l)) (hlen : r₂.length + 1 < l) :
    decode_varint (f :: r₂) = .error (.IncompleteInput l (r₂.length + 1)) := by
  have hL := decode_varint_ok_len f r₁ v l h
  simp only [decode_varint]
  rw [← hL, if_pos hlen]

/-- Restricting a successful varint decode to a prefix of the buffer. -/
theorem decode_varint_restrict (b p : List Nat) (v l : Nat)
    (hd : decode_varint b = .ok (v, l)) (hp : p <+: b) :
    (l ≤ p.length → decode_varint p = .ok (v, l)) ∧
    (p.length < l → ∃ nm av, decode_varint p = .error (.IncompleteInput nm av)) := by
  have hbnd := decode_varint_ok_bounds b v l hd
  cases b with
  | nil => simp [decode_varint] at hd
  | cons f rb =>
    cases p with
    | nil =>
      refine ⟨fun hle => ?_, fun _ => ⟨1, 0, by simp [decode_varint]⟩⟩
      simp at hle
      omega
    | cons f2 rp =>
      obtain ⟨t, ht⟩ := hp
      rw [List.cons_append] at ht
      injection ht with hf hrt
      subst hf
      constructor
      · intro hle
        refine decode_varint_ext _ rb rp v l hd (by simpa using hle) ?_
        intro i hi
        rw [← hrt]
        exact List.getD_append rp t 0 i (by simp at hle; omega)
      · intro hlt
        exact ⟨l, rp.length + 1,
          decode_varint_short _ rb rp v l hd (by simpa using hlt)⟩

/-- Inversion of a successful `FrameHeader::decode`: the three varint reads
and the assembled result. -/
theorem decode_ok_inv (f : Nat) (r : List Nat) (h : FrameHeader) (n : Nat)
    (hd : FrameHeader.decode (f :: r) = .ok (h, n)) :
    ∃ c lc s ls L ll,
      decode_varint r = .ok (c, lc) ∧
      decode_varint ((f :: r).drop (1 + lc)) = .ok (s, ls) ∧
      decode_varint ((f :: r).drop (1 + lc + ls)) = .ok (L, ll) ∧
      n = 1 + lc + ls + ll ∧
      h = { flags := ⟨f &&& 128 != 0, f &&& 64 != 0⟩,
            frame_type := FrameType.ofU8 (f &&& 31),
            channel_id := c % 4294967296, stream_id := s, length := L } := by
  rcases hc : decode_varint r with e | ⟨c, lc⟩
  · rw [decode_error_channel f r e hc] at hd
    exact Except.noConfusion hd
  rcases hs : decode_varint ((f :: r).drop (1 + lc)) with e | ⟨s, ls⟩
  · rw [decode_error_stream f r c lc e hc hs] at hd
    exact Except.noConfusion hd
  rcases hl : decode_varint ((f :: r).drop (1 + lc + ls)) with e | ⟨L, ll⟩
  · rw [decode_error_length f r c lc s ls e hc hs hl] at hd
    exact Except.noConfusion hd
  rw [decode_cons_eq f r c lc s ls L ll hc hs hl] at hd
  simp only [Except.ok.injEq, Prod.mk.injEq] at hd
  exact ⟨c, lc, s, ls, L, ll, rfl, hs, hl, hd.2.symm, hd.1.symm⟩

/-- Dropping the same count preserves the prefix relation. -/
theorem prefix_drop (p b : List Nat) (hp : p <+: b) (j : Nat) :
    p.drop j <+: b.drop j := by
  obtain ⟨t, rfl⟩ := hp
  by_cases hj : j ≤ p.length
  · rw [List.drop_append_of_le_length hj]
    exact ⟨t, rfl⟩
  · rw [List.drop_eq_nil_of_le (show p.length ≤ j by omega)]
    exact List.nil_prefix

/-- A successful header decode is preserved on any prefix that still contains
all consumed bytes. -/
theorem decode_prefix_ok (b p : List Nat) (h : FrameHeader) (n : Nat)
    (hd : FrameHeader.decode b = .ok (h, n)) (hp : p <+: b) (hn : n ≤ p.length) :
    FrameHeader.decode p = .ok (h, n) := by
  cases b with
  | nil => simp [FrameHeader.decode] at hd
  | cons f rb =>
    cases p with
    | nil =>
      have := (decode_ok_bounds _ h n hd).1
      simp at hn
      omega
    | cons f2 rp =>
      obtain ⟨t, ht⟩ := hp
      rw [List.cons_append] at ht
      injection ht with hf hrt
      subst hf
      obtain ⟨c, lc, s, ls, L, ll, hc, hs, hl, hn', hh⟩ := decode_ok_inv _ rb h n hd
      have bc := decode_varint_ok_bounds rb c lc hc
      have bs := decode_varint_ok_bounds _ s ls hs
      have bl := decode_varint_ok_bounds _ L ll hl
      simp only [List.length_drop, List.length_cons] at bs bl
      simp only [List.length_cons] at hn
      have hpre : rp <+: rb := ⟨t, hrt⟩
      have d1 : decode_varint rp = .ok (c, lc) :=
        (decode_varint_restrict rb rp c lc hc hpre).1 (by omega)
      have d2 : decode_varint ((f2 :: rp).drop (1 + lc)) = .ok (s, ls) := by
        have hp2 : (f2 :: rp).drop (1 + lc) <+: (f2 :: rb).drop (1 + lc) :=
          prefix_drop _ _ (⟨t, by rw [List.cons_append, hrt]⟩) (1 + lc)
        exact (decode_varint_restrict _ _ s ls hs hp2).1
          (by simp only [List.length_drop, List.length_cons]; omega)
      have d3 : decode_varint ((f2 :: rp).drop (1 + lc + ls)) = .ok (L, ll) := by
        have hp3 : (f2 :: rp).drop (1 + lc + ls) <+: (f2 :: rb).drop (1 + lc + ls) :=
          prefix_drop _ _ (⟨t, by rw [List.cons_append, hrt]⟩) (1 + lc + ls)
        exact (decode_varint_restrict _ _ L ll hl hp3).1
          (by simp only [List.length_drop, List.length_cons]; omega)
      rw [decode_cons_eq f2 rp c lc s ls L ll d1 d2 d3, hh, hn']

/-- Truncating a successful header decode below its consumed length yields
`IncompleteInput`. -/
theorem decode_prefix_short (b p : List Nat) (h : FrameHeader) (n : Nat)
    (hd : FrameHeader.decode b = .ok (h, n)) (hp : p <+: b) (hn : p.length < n) :
    ∃ nm av, FrameHeader.decode p = .error (.IncompleteInput nm av) := by
  cases b with
  | nil => simp [FrameHeader.decode] at hd
  | cons f rb =>
    cases p with
    | nil => exact ⟨1, 0, rfl⟩
    | cons f2 rp =>
      obtain ⟨t, ht⟩ := hp
      rw [List.cons_append] at ht
      injection ht with hf hrt
      subst hf
      obtain ⟨c, lc, s, ls, L, ll, hc, hs, hl, hn', hh⟩ := decode_ok_inv _ rb h n hd
      have bc := decode_varint_ok_bounds rb c lc hc
      have bs := decode_varint_ok_bounds _ s ls hs
      have bl := decode_varint_ok_bounds _ L ll hl
      simp only [List.length_drop, List.length_cons] at bs bl
      simp only [List.length_cons] at hn
      have hpre : rp <+: rb := ⟨t, hrt⟩
      by_cases k1 : rp.length < lc
      · obtain ⟨nm, av, herr⟩ := (decode_varint_restrict rb rp c lc hc hpre).2 k1
        exact ⟨nm, av, decode_error_channel f2 rp _ herr⟩
      have d1 : decode_varint rp = .ok (c, lc) :=
        (decode_varint_restrict rb rp c lc hc hpre).1 (by omega)
      have hp2 : (f2 :: rp).drop (1 + lc) <+: (f2 :: rb).drop (1 + lc) :=
        prefix_drop _ _ (⟨t, by rw [List.cons_append, hrt]⟩) (1 + lc)
      by_cases k2 : ((f2 :: rp).drop (1 + lc)).length < ls
      · obtain ⟨nm, av, herr⟩ := (decode_varint_restrict _ _ s ls hs hp2).2 k2
        exact ⟨nm, av, decode_error_stream f2 rp c lc _ d1 herr⟩
      have d2 : decode_varint ((f2 :: rp).drop (1 + lc)) = .ok (s, ls) :=
        (decode_varint_restrict _ _ s ls hs hp2).1 (by omega)
      have hp3 : (f2 :: rp).drop (1 + lc + ls) <+: (f2 :: rb).drop (1 + lc + ls) :=
        prefix_drop _ _ (⟨t, by rw [List.cons_append, hrt]⟩) (1 + lc + ls)
      have k3 : ((f2 :: rp).drop (1 + lc + ls)).length < ll := by
        simp only [List.length_drop, List.length_cons] at k2 ⊢
        omega
      obtain ⟨nm, av, herr⟩ := (decode_varint_restrict _ _ L ll hl hp3).2 k3
      exact ⟨nm, av, decode_error_length f2 rp c lc s ls _ d1 d2 herr⟩

/-- `parse_frame` on a buffer holding exactly one whole frame yields the frame
and leaves the buffer empty. -/
theorem parse_some_of_complete (bytes : List Nat) (h : FrameHeader) (n : Nat)
    (hd : FrameHeader.decode bytes = .ok (h, n)) (hlen : bytes.length = n + h.length) :
    Framer.parse_frame bytes = .ok (some ((h, bytes.drop n), [])) := by
  have hb := decode_ok_bounds bytes h n hd
  have hne : bytes.isEmpty = false := by
    cases bytes with
    | nil =>
      simp at hb
      exact absurd hb (by omega)
    | cons a l => rfl
  simp only [Framer.parse_frame, hne, hd]
  rw [if_pos (show n + h.length ≤ bytes.length from by omega)]
  rw [show (bytes.drop n).take h.length = bytes.drop n from by
        have hh : (bytes.drop n).length = h.length := by
          simp only [List.length_drop]
          omega
        rw [← hh, List.take_length],
      List.drop_eq_nil_of_le (show bytes.length ≤ n + h.length by omega)]
  rfl

/-- `parse_frame` on a proper prefix of a well-formed frame reports "not yet"
(`Ok(None)`), never an error: either the header is still incomplete or the
payload is. -/
theorem parse_none_of_proper_front (bytes : List Nat) (h : FrameHeader) (n : Nat)
    (hd : FrameHeader.decode bytes = .ok (h, n)) (hlen : bytes.length = n + h.length)
    (pre : List Nat) (hp : pre <+: bytes) (hl : pre.length < bytes.length) :
    Framer.parse_frame pre = .ok none := by
  by_cases hpre : pre.isEmpty
  · simp [Framer.parse_frame, hpre]
  · have hpre' : pre.isEmpty = false := by simpa using hpre
    by_cases hn : n ≤ pre.length
    · have dpo := decode_prefix_ok bytes pre h n hd hp hn
      simp only [Framer.parse_frame, hpre', dpo]
      rw [if_neg (show ¬(n + h.length ≤ pre.length) from by omega)]
      rfl
    · obtain ⟨nm, av, herr⟩ := decode_prefix_short bytes pre h n hd hp (by omega)
      simp only [Framer.parse_frame, hpre', herr]
      rfl

/-- One-step unfolding of `read_frame`: a complete frame in the buffer is
returned at once, the unread chunks untouched. -/
theorem read_frame_done (buffer : List Nat) (chunks : List (List Nat))
    (frame : FrameHeader × List Nat) (restBuf : List Nat)
    (hp : Framer.parse_frame buffer = .ok (some (frame, restBuf))) :
    Framer.read_frame buffer chunks = .ok (some (frame, restBuf, chunks)) := by
  cases chunks <;> simp only [Framer.read_frame, hp]

/-- One-step unfolding of `read_frame`: no frame yet and a non-empty chunk
available, so the chunk is appended to the buffer and the loop continues. -/
theorem read_frame_step (buffer c : List Nat) (rest : List (List Nat))
    (hp : Framer.parse_frame buffer = .ok none) (hc : c.isEmpty = false) :
    Framer.read_frame buffer (c :: rest) = Framer.read_frame (buffer ++ c) rest := by
  simp only [Framer.read_frame, hp]
  simp [hc]

/-- One-step unfolding of `read_frame` at end of stream (`read` returned
`None`). -/
theorem read_frame_nil_eq (buffer : List Nat)
    (hp : Framer.parse_frame buffer = .ok none) :
    Framer.read_frame buffer [] =
      if buffer.isEmpty then .ok none
      else .error "Stream closed with partial frame data" := by
  simp only [Framer.read_frame, hp]

/-- One-step unfolding of `read_frame` at end of stream (`read` returned
`Some(0)`). -/
theorem read_frame_empty_chunk (buffer : List Nat) (rest : List (List Nat))
    (hp : Framer.parse_frame buffer = .ok none) :
    Framer.read_frame buffer ([] :: rest) =
      if buffer.isEmpty then .ok none
      else .error "Stream closed with partial frame data" := by
  simp only [Framer.read_frame, hp]
  simp

/-- Claim C4: at a clean end-of-stream signal (`Some(0)` or `None`),
`read_frame` returns `None` when its buffer is empty — the normal end of
stream — and an error when the buffer holds any bytes of a partial frame. -/
theorem read_frame_eof_behavior :
    (Framer.read_frame [] [] = .ok none) ∧
    (∀ rest : List (List Nat), Framer.read_frame [] ([] :: rest) = .ok none) ∧
    (∀ buffer : List Nat, buffer ≠ [] → Framer.parse_frame buffer = .ok none →
      Framer.read_frame buffer [] = .error "Stream closed with partial frame data") ∧
    (∀ (buffer : List Nat) (rest : List (List Nat)), buffer ≠ [] →
      Framer.parse_frame buffer = .ok none →
      Framer.read_frame buffer ([] :: rest) =
        .error "Stream closed with partial frame data") := by
  refine ⟨rfl, fun rest => ?_, fun buffer hne hp => ?_, fun buffer rest hne hp => ?_⟩
  · rw [read_frame_empty_chunk [] rest rfl]
    rfl
  · cases buffer with
    | nil => exact absurd rfl hne
    | cons b bs =>
      rw [read_frame_nil_eq _ hp]
      rfl
  · cases buffer with
    | nil => exact absurd rfl hne
    | cons b bs =>
      rw [read_frame_empty_chunk _ rest hp]
      rfl

/-- Witness for C4: a stream that ends after delivering one byte of a partial
header yields the mid-frame error. -/
theorem read_frame_eof_behavior_witness :
    Framer.read_frame [9] [] = .error "Stream closed with partial frame data" :=
  read_frame_eof_behavior.2.2.1 [9] (by decide) (by rfl)

/-- Invariant step for C5: feeding any chunking of one well-formed frame into
the read loop ends with exactly that frame and an empty buffer. -/
theorem read_frame_go (bytes : List Nat) (h : FrameHeader) (n : Nat)
    (hd : FrameHeader.decode bytes = .ok (h, n)) (hlen : bytes.length = n + h.length) :
    ∀ (chunks : List (List Nat)) (buffer : List Nat),
      (∀ c ∈ chunks, c ≠ []) → buffer ++ chunks.flatten = bytes →
      Framer.read_frame buffer chunks = .ok (some ((h, bytes.drop n), ([], []))) := by
  intro chunks
  induction chunks with
  | nil =>
    intro buffer _ hjoin
    rw [List.flatten_nil, List.append_nil] at hjoin
    subst hjoin
    exact read_frame_done _ [] _ _ (parse_some_of_complete _ h n hd hlen)
  | cons c rest ih =>
    intro buffer hcne hjoin
    have hcne' : c ≠ [] := hcne c (by simp)
    rw [List.flatten_cons] at hjoin
    have hjoin' : (buffer ++ c) ++ rest.flatten = bytes := by
      rw [List.append_assoc]
      exact hjoin
    have hlt : buffer.length < bytes.length := by
      have hlen2 := congrArg List.length hjoin'
      simp only [List.length_append] at hlen2
      have hc1 : 1 ≤ c.length := List.length_pos.mpr hcne'
      omega
    have hpn : Framer.parse_frame buffer = .ok none := by
      refine parse_none_of_proper_front bytes h n hd hlen buffer ?_ hlt
      exact ⟨c ++ rest.flatten, by rw [← List.append_assoc]; exact hjoin'⟩
    rw [read_frame_step buffer c rest hpn (by simpa using hcne')]
    exact ih (buffer ++ c) (fun x hx => hcne x (by simp [hx])) hjoin'

/-- Claim C5: a well-formed encoded frame (header plus exactly its declared
payload), split into any sequence of non-empty chunks, is reassembled by
`read_frame` into exactly one frame, identical to the result of feeding all
the bytes in a single read. -/
theorem read_frame_chunked_eq_single (bytes : List Nat) (h : FrameHeader) (n : Nat)
    (hd : FrameHeader.decode bytes = .ok (h, n)) (hlen : bytes.length = n + h.length)
    (chunks : List (List Nat)) (hne : chunks ≠ []) (hcne : ∀ c ∈ chunks, c ≠ [])
    (hjoin : chunks.flatten = bytes) :
    Framer.read_frame [] chunks = .ok (some ((h, bytes.drop n), ([], []))) ∧
    Framer.read_frame [] chunks = Framer.read_frame [] [bytes] := by
  have h1 := read_frame_go bytes h n hd hlen chunks [] hcne (by simpa using hjoin)
  have hbne : bytes ≠ [] := by
    intro hb
    rw [hb] at hd
    exact Except.noConfusion hd
  have h2 := read_frame_go bytes h n hd hlen [bytes] [] (by simpa using hbne)
    (by simp)
  exact ⟨h1, h1.trans h2.symm⟩

/-- Witness for C5: one 6-byte frame (4-byte header, 2-byte payload) split
into three chunks. -/
theorem read_frame_chunked_eq_single_witness :
    Framer.read_frame [] [[0, 0], [0, 2, 9], [8]] =
      .ok (some ((⟨⟨false, false⟩, .RawBinary, 0, 0, 2⟩,
        ([0, 0, 0, 2, 9, 8] : List Nat).drop 4), ([], []))) ∧
    Framer.read_frame [] [[0, 0], [0, 2, 9], [8]] =
      Framer.read_frame [] [[0, 0, 0, 2, 9, 8]] :=
  read_frame_chunked_eq_single [0, 0, 0, 2, 9, 8] ⟨⟨false, false⟩, .RawBinary, 0, 0, 2⟩ 4
    (by rfl) (by rfl) [[0, 0], [0, 2, 9], [8]] (by decide) (by decide) (by rfl)

/-- `FrameType::from` maps every tag outside `{0, 1, 2}` to `Unknown`. -/
theorem ofU8_unknown (x : Nat) (h0 : x ≠ 0) (h1 : x ≠ 1) (h2 : x ≠ 2) :
    FrameType.ofU8 x = .Unknown := by
  cases x with
  | zero => exact absurd rfl h0
  | succ x1 =>
    cases x1 with
    | zero => exact absurd rfl h1
    | succ x2 =>
      cases x2 with
      | zero => exact absurd rfl h2
      | succ x3 => rfl

/-- Claim C6: a first byte whose low 5 bits are not 0, 1 or 2 never makes
`FrameHeader::decode` fail: on success the frame type is `Unknown`, and any
failure is an `IncompleteInput` from a varint — never caused by the tag. -/
theorem decode_unknown_type_tolerant (b0 : Nat) (rest : List Nat) (hb0 : b0 < 256)
    (hrest : ∀ x ∈ rest, x < 256)
    (h0 : b0 % 32 ≠ 0) (h1 : b0 % 32 ≠ 1) (h2 : b0 % 32 ≠ 2) :
    (∀ h n, FrameHeader.decode (b0 :: rest) = .ok (h, n) →
      h.frame_type = FrameType.Unknown) ∧
    (∀ e, FrameHeader.decode (b0 :: rest) = .error e →
      ∃ nm av, e = .IncompleteInput nm av) := by
  have hball : ∀ x ∈ b0 :: rest, x < 256 := by
    intro x hx
    rcases List.mem_cons.mp hx with rfl | hx2
    · exact hb0
    · exact hrest x hx2
  have hand : b0 &&& 31 = b0 % 32 := by
    have h5 := Nat.and_pow_two_sub_one_eq_mod b0 5
    norm_num at h5
    exact h5
  constructor
  · intro h n hd
    obtain ⟨c, lc, s, ls, L, ll, hc, hs, hl, hn, hh⟩ := decode_ok_inv b0 rest h n hd
    rw [hh]
    show FrameType.ofU8 (b0 &&& 31) = FrameType.Unknown
    rw [hand]
    exact ofU8_unknown _ h0 h1 h2
  · intro e hd
    rcases hc : decode_varint rest with e1 | ⟨c, lc⟩
    · rw [decode_error_channel b0 rest e1 hc] at hd
      injection hd with hd
      subst hd
      exact decode_varint_error_incomplete rest hrest _ hc
    rcases hs : decode_varint ((b0 :: rest).drop (1 + lc)) with e1 | ⟨s, ls⟩
    · rw [decode_error_stream b0 rest c lc e1 hc hs] at hd
      injection hd with hd
      subst hd
      exact decode_varint_error_incomplete _
        (fun x hx => hball x (List.drop_subset _ _ hx)) _ hs
    rcases hl : decode_varint ((b0 :: rest).drop (1 + lc + ls)) with e1 | ⟨L, ll⟩
    · rw [decode_error_length b0 rest c lc s ls e1 hc hs hl] at hd
      injection hd with hd
      subst hd
      exact decode_varint_error_incomplete _
        (fun x hx => hball x (List.drop_subset _ _ hx)) _ hl
    · rw [decode_cons_eq b0 rest c lc s ls L ll hc hs hl] at hd
      exact Except.noConfusion hd

/-- Witness for C6 at the unrecognized tag byte 5 with three zero varints. -/
theorem decode_unknown_type_tolerant_witness :
    ({ flags := ⟨false, false⟩, frame_type := FrameType.Unknown, channel_id := 0,
       stream_id := 0, length := 0 } : FrameHeader).frame_type = FrameType.Unknown :=
  (decode_unknown_type_tolerant 5 [0, 0, 0] (by decide) (by decide) (by decide)
    (by decide) (by decide)).1 _ 4 (by rfl)

/-- Claim C7: an encoded header whose channel-id varint carries a value
`v ≥ 2 ^ 32` (with the remaining two varints well-formed) still decodes
successfully, and the resulting `channel_id` is `v` truncated to 32 bits — a
silently different value. -/
theorem decode_channel_id_truncates (b0 : Nat) (rest : List Nat) (v lc s ls L ll : Nat)
    (hc : decode_varint rest = .ok (v, lc))
    (hs : decode_varint ((b0 :: rest).drop (1 + lc)) = .ok (s, ls))
    (hl : decode_varint ((b0 :: rest).drop (1 + lc + ls)) = .ok (L, ll))
    (hv : 4294967296 ≤ v) :
    ∃ h, FrameHeader.decode (b0 :: rest) = .ok (h, 1 + lc + ls + ll) ∧
      h.channel_id = v % 4294967296 ∧ h.channel_id ≠ v := by
  refine ⟨_, decode_cons_eq b0 rest v lc s ls L ll hc hs hl, rfl, ?_⟩
  show v % 4294967296 ≠ v
  omega

/-- Witness for C7 at a channel-id varint carrying exactly `2 ^ 32`. -/
theorem decode_channel_id_truncates_witness :
    ∃ h, FrameHeader.decode (0 :: [192, 0, 0, 1, 0, 0, 0, 0, 0, 0]) =
        .ok (h, 1 + 8 + 1 + 1) ∧
      h.channel_id = 4294967296 % 4294967296 ∧ h.channel_id ≠ 4294967296 :=
  decode_channel_id_truncates 0 [192, 0, 0, 1, 0, 0, 0, 0, 0, 0] 4294967296 8 0 1 0 1
    (by rfl) (by rfl) (by rfl) (by norm_num)

/-- `OutboundMessage` from `src/orzatty-client/src/easy.rs`: a channel id and
the owned payload bytes. -/
structure OutboundMessage where
  channel_id : Nat
  data : List Nat

/-- The bytes `EasyClient::writer_loop` (in `easy.rs`) writes for one dequeued
message: it builds a header with empty flags, `frame_type = RawBinary`, the
message's `channel_id`, the stream's id and `length = msg.data.len()`, encodes
it into its 32-byte `head_buf`, and writes the `h_len` header bytes followed by
the payload bytes.  If `encode` failed the message would be skipped (`none`);
stream write errors are transport IO and not modelled. -/
def writer_frame_bytes (sid : Nat) (msg : OutboundMessage) : Option (List Nat) :=
  match FrameHeader.encode
      { flags := FrameFlags.empty, frame_type := .RawBinary,
        channel_id := msg.channel_id, stream_id := sid,
        length := msg.data.length } 32 with
  | .ok hb => some (hb ++ msg.data)
  | .error _ => none

/-- Claim C8: for every dequeued outbound message the writer actor emits the
encoding of a header with `frame_type = RawBinary`, the message's
`channel_id`, and `length` equal to the payload size, and the header bytes
precede the payload bytes on the wire. -/
theorem writer_frame_layout (sid : Nat) (msg : OutboundMessage)
    (hch : msg.channel_id < 4294967296) (hsid : sid < 4611686018427387904)
    (hlen : msg.data.length < 4611686018427387904) :
    ∃ hb, writer_frame_bytes sid msg = some (hb ++ msg.data) ∧
      FrameHeader.decode hb =
        .ok ({ flags := FrameFlags.empty, frame_type := .RawBinary,
               channel_id := msg.channel_id, stream_id := sid,
               length := msg.data.length }, hb.length) := by
  have m1 := minimalWidth_pos msg.channel_id
  have m2 := minimalWidth_pos sid
  have m3 := minimalWidth_pos msg.data.length
  obtain ⟨bs, he, hl2, hdec⟩ := header_encode_decode_spec
    { flags := FrameFlags.empty, frame_type := .RawBinary,
      channel_id := msg.channel_id, stream_id := sid,
      length := msg.data.length } 32 hch hsid hlen (by simp only; omega)
  refine ⟨bs, ?_, hdec⟩
  unfold writer_frame_bytes
  simp only [he]

/-- Witness for C8 at stream id 7, channel 3 and a 3-byte payload. -/
theorem writer_frame_layout_witness :
    ∃ hb, writer_frame_bytes 7 { channel_id := 3, data := [1, 2, 3] } =
        some (hb ++ [1, 2, 3]) ∧
      FrameHeader.decode hb =
        .ok ({ flags := FrameFlags.empty, frame_type := .RawBinary,
               channel_id := 3, stream_id := 7, length := 3 }, hb.length) :=
  writer_frame_layout 7 { channel_id := 3, data := [1, 2, 3] } (by decide) (by decide)
    (by decide)

example : decode_varint [5] = .ok (5, 1) := by rfl
example : encode_varint 15293 8 = .ok [123, 189] := by rfl
example : decode_varint [123, 189] = .ok (15293, 2) := by rfl
example : FrameHeader.decode [0xC2, 42, 0x70, 0x39, 0x40, 100] =
    .ok ({ flags := ⟨true, true⟩, frame_type := .Utf8Text, channel_id := 42,
           stream_id := 12345, length := 100 }, 6) := by rfl

end Orzatty
